import Mathlib

/-!
Verification of the go-grok capture registry (grok_capture.c) together with
its Tokyo-Cabinet shim over libdict (cgrok/tree.c).

The shim stores an ordered dictionary (TCTREE) whose observable state we model
as a strictly-ascending association list: `dict_insert` keeps keys unique and
iteration visits keys in ascending comparator order.  Keys and values are
copied on insertion (tcpack), so stored entries are immutable snapshots.
C strings are modelled as lists of characters, ordered lexicographically as
`dict_str_cmp` orders them.  TCLIST is a singly linked list with a hidden head
node whose `elem` field is initialised to NULL; we keep that hidden element
explicitly because the negative-index behaviour of `tclistval` depends on it.
-/

set_option linter.unusedVariables false
set_option linter.unusedTactic false

/-- A C string as the key/field payload: its characters. -/
abbrev CStr := List Char

/-- Observable state of a TCTREE: its entries in ascending key order. -/
abbrev TCTree (κ α : Type) := List (κ × α)

/-- `tctreeput`: insert-or-overwrite.  `dict_insert` places the packed key in
comparator order; when the key already exists the prior value is freed and the
slot receives the new packed value. -/
def tctreeput [LinearOrder κ] : TCTree κ α → κ → α → TCTree κ α
  | [], k, v => [(k, v)]
  | p :: t, k, v =>
    if k < p.1 then (k, v) :: p :: t
    else if k = p.1 then (k, v) :: t
    else p :: tctreeput t k v

/-- `tctreeget`: `dict_search`; returns the stored value for the key, or NULL
(`none`) when the key is absent. -/
def tctreeget [LinearOrder κ] : TCTree κ α → κ → Option α
  | [], _ => none
  | p :: t, k => if k = p.1 then some p.2 else tctreeget t k

/-- Fold a sequence of `tctreeput` operations over a tree, in order. -/
def putAll [LinearOrder κ] (t : TCTree κ α) (ops : List (κ × α)) : TCTree κ α :=
  ops.foldl (fun t p => tctreeput t p.1 p.2) t

/-- Spec-side notion for the last-write-wins claim: the value of the most
recent put for key `k` among `ops`, or `none` when `k` was never put. -/
def lastPut [DecidableEq κ] (ops : List (κ × α)) (k : κ) : Option α :=
  (ops.filterMap (fun p => if p.1 = k then some p.2 else none)).getLast?

/-- A TCTREE together with its single iterator (`tree->iter`).  The iterator
is the suffix of entries not yet visited; `dict_itor_first` positions it at
the first (least) key. -/
structure TCTreeIter (κ α : Type) where
  entries : TCTree κ α
  iter : TCTree κ α

/-- `tctreeiterinit`: frees any prior iterator and positions a fresh iterator
at the first key of the tree. -/
def tctreeiterinit (t : TCTreeIter κ α) : TCTreeIter κ α :=
  ⟨t.entries, t.entries⟩

/-- `tctreeiternext`: yields the current key (or NULL when exhausted) and
advances the iterator. -/
def tctreeiternext (t : TCTreeIter κ α) : Option κ × TCTreeIter κ α :=
  match t.iter with
  | [] => (none, t)
  | p :: rest => (some p.1, ⟨t.entries, rest⟩)

/-- Keys produced by calling `tctreeiternext` repeatedly until it yields NULL;
each cons step is one `tctreeiternext` call on the remaining suffix. -/
def iterDrainAux : TCTree κ α → List κ
  | [] => []
  | p :: rest => p.1 :: iterDrainAux rest

/-- Drain the iterator of a tree: all keys from the current iterator position
until exhaustion. -/
def iterDrain (t : TCTreeIter κ α) : List κ :=
  iterDrainAux t.iter

/-- TCLIST: singly linked list with a hidden head node.  `headElem` is the
hidden head node's `elem` field (NULL at construction); `elems` are the
payload elements in list order. -/
structure TCLIST (α : Type) where
  headElem : Option α
  elems : List α
deriving DecidableEq

/-- `tclistnew`: empty list; the hidden head node's `elem` is set to 0. -/
def tclistnew : TCLIST α := ⟨none, []⟩

/-- `tclistnum`: the stored length, as a C int. -/
def tclistnum (l : TCLIST α) : Int := l.elems.length

/-- `tclistpush`: append a (copied) element at the end. -/
def tclistpush (l : TCLIST α) (v : α) : TCLIST α :=
  ⟨l.headElem, l.elems ++ [v]⟩

/-- `tclistval`: only the upper bound is checked explicitly.  For a negative
index the walk loop from the hidden head never executes, so the function
returns the hidden head node's `elem`. -/
def tclistval (l : TCLIST α) (index : Int) : Option α :=
  if (l.elems.length : Int) ≤ index then none
  else if index < 0 then l.headElem
  else l.elems[index.toNat]?

/-- `tclistremove`: explicit two-sided bounds check; in range, unlinks and
returns the element at `index`. -/
def tclistremove (l : TCLIST α) (index : Int) : Option α × TCLIST α :=
  if index < 0 ∨ (l.elems.length : Int) ≤ index then (none, l)
  else (l.elems[index.toNat]?, ⟨l.headElem, l.elems.eraseIdx index.toNat⟩)

/-- `tclistover`: explicit two-sided bounds check; in range, replaces the
element at `index`. -/
def tclistover (l : TCLIST α) (index : Int) (v : α) : TCLIST α :=
  if index < 0 ∨ (l.elems.length : Int) ≤ index then l
  else ⟨l.headElem, l.elems.set index.toNat v⟩

/-- Push `vs` one by one onto a fresh list. -/
def pushAll (vs : List α) : TCLIST α :=
  vs.foldl tclistpush tclistnew

/-- Bucket lists reachable through the TCLIST API from `tclistnew`. -/
inductive TCLISTReachable : TCLIST α → Prop where
  | new : TCLISTReachable tclistnew
  | push (l : TCLIST α) (v : α) : TCLISTReachable l → TCLISTReachable (tclistpush l v)
  | remove (l : TCLIST α) (i : Int) : TCLISTReachable l → TCLISTReachable (tclistremove l i).2
  | over (l : TCLIST α) (i : Int) (v : α) : TCLISTReachable l → TCLISTReachable (tclistover l i v)

/-- A capture descriptor (grok_capture), restricted to the fields the
registry logic reads: id, pcre_capture_number and the three strings. -/
structure grok_capture where
  id : Int
  pcre_capture_number : Int
  name : CStr
  subname : CStr
  pattern : CStr
deriving DecidableEq

/-- The four indices of a capture registry (fields of grok_t). -/
structure grok_t where
  captures_by_id : TCTree Int grok_capture
  captures_by_capture_number : TCTree Int grok_capture
  captures_by_name : TCTree CStr (TCLIST grok_capture)
  captures_by_subname : TCTree CStr (TCLIST grok_capture)
deriving DecidableEq

/-- A registry with all four indices empty. -/
def grok_empty : grok_t := ⟨[], [], [], []⟩

/-- The deduplication loop in `grok_capture_add`: scan the bucket list and
remove the first capture whose id matches (tclistremove, then break). -/
def removeSameId (cid : Int) : List grok_capture → List grok_capture
  | [] => []
  | c :: t => if c.id = cid then t else c :: removeSameId cid t

/-- `strstr(name, ":") != NULL`: for a single-character needle this is
exactly character membership. -/
def hasQualifier (name : CStr) : Bool := ':' ∈ name

/-- The bucket-list update inside `grok_capture_add`: take the stored list for
the key (a fresh `tclistnew` when the lookup returned NULL), remove the first
capture with the same id, then push the new capture at the end. -/
def bucketUpdate (gct : grok_capture) (stored : Option (TCLIST grok_capture)) :
    TCLIST grok_capture :=
  tclistpush ⟨(stored.getD tclistnew).headElem, removeSameId gct.id (stored.getD tclistnew).elems⟩ gct

/-- `grok_capture_add`: skip silently when `only_renamed` is set and the name
has no ":" (strstr returns NULL); otherwise upsert into by-id and
by-capture-number, and replace-or-append into the name and subname bucket
lists, re-storing each list under its key. -/
def grok_capture_add (grok : grok_t) (gct : grok_capture) (only_renamed : Bool) : grok_t :=
  if only_renamed && !hasQualifier gct.name then grok
  else
    ⟨tctreeput grok.captures_by_id gct.id gct,
     tctreeput grok.captures_by_capture_number gct.pcre_capture_number gct,
     tctreeput grok.captures_by_name gct.name
       (bucketUpdate gct (tctreeget grok.captures_by_name gct.name)),
     tctreeput grok.captures_by_subname gct.subname
       (bucketUpdate gct (tctreeget grok.captures_by_subname gct.subname))⟩

/-- `grok_capture_get_by_id`. -/
def grok_capture_get_by_id (grok : grok_t) (id : Int) : Option grok_capture :=
  tctreeget grok.captures_by_id id

/-- `grok_capture_get_by_name`: fetch the bucket list for the name, NULL when
absent, else the element at index 0. -/
def grok_capture_get_by_name (grok : grok_t) (name : CStr) : Option grok_capture :=
  match tctreeget grok.captures_by_name name with
  | none => none
  | some l => tclistval l 0

/-- `grok_capture_get_by_subname`. -/
def grok_capture_get_by_subname (grok : grok_t) (subname : CStr) : Option grok_capture :=
  match tctreeget grok.captures_by_subname subname with
  | none => none
  | some l => tclistval l 0

/-- `grok_capture_get_by_capture_number`. -/
def grok_capture_get_by_capture_number (grok : grok_t) (n : Int) : Option grok_capture :=
  tctreeget grok.captures_by_capture_number n

/-- `grok_capture_walk_next` driven to exhaustion: each step takes the next
key from the by-id iterator and resolves it through `tctreeget` on
captures_by_id; a NULL key (or NULL lookup result) ends the walk. -/
def walkFrom (grok : grok_t) : TCTree Int grok_capture → List grok_capture
  | [] => []
  | p :: iter =>
    match tctreeget grok.captures_by_id p.1 with
    | none => []
    | some c => c :: walkFrom grok iter

/-- `grok_capture_walk_init` followed by `grok_capture_walk_next` until NULL:
the iterator starts at the least id of captures_by_id. -/
def grok_capture_walk (grok : grok_t) : List grok_capture :=
  walkFrom grok grok.captures_by_id

/-- Registries reachable from an initialised grok_t by `grok_capture_add`. -/
inductive Reachable : grok_t → Prop where
  | empty : Reachable grok_empty
  | step (g : grok_t) (c : grok_capture) (f : Bool) :
      Reachable g → Reachable (grok_capture_add g c f)

/-- Allocation-counting model of `grok_capture_add` for the OutOfMemory
analysis.  `fuel` is the number of `malloc` calls (inside `tcpack`,
`tclistnew`, `tclistpush`) that succeed before allocation fails; a failed
allocation crashes the process (`tcpack` immediately memcpys into the NULL
buffer), so execution stops there and the registry keeps exactly the updates
already performed.  Each `tctreeput` consumes 2 allocations (packed key and
packed value) before its index is updated; creating a fresh bucket list
consumes 2 and pushing onto one consumes 2, before that index is re-stored
with 2 more.  The Bool reports whether the call ran to completion. -/
def grok_capture_add_alloc (fuel : Nat) (grok : grok_t) (gct : grok_capture)
    (only_renamed : Bool) : grok_t × Bool :=
  if only_renamed && !hasQualifier gct.name then (grok, true)
  else if fuel < 2 then (grok, false)
  else
    let g1 : grok_t :=
      { grok with captures_by_id := tctreeput grok.captures_by_id gct.id gct }
    let fuel1 := fuel - 2
    if fuel1 < 2 then (g1, false)
    else
      let by_num := tctreeput g1.captures_by_capture_number gct.pcre_capture_number gct
      let g2 : grok_t := { g1 with captures_by_capture_number := by_num }
      let fuel2 := fuel1 - 2
      let nameNeed := (if (tctreeget g2.captures_by_name gct.name).isSome then 0 else 2) + 4
      if fuel2 < nameNeed then (g2, false)
      else
        let nl := bucketUpdate gct (tctreeget g2.captures_by_name gct.name)
        let g3 : grok_t := { g2 with captures_by_name := tctreeput g2.captures_by_name gct.name nl }
        let fuel3 := fuel2 - nameNeed
        let subNeed := (if (tctreeget g3.captures_by_subname gct.subname).isSome then 0 else 2) + 4
        if fuel3 < subNeed then (g3, false)
        else
          let sl := bucketUpdate gct (tctreeget g3.captures_by_subname gct.subname)
          let g4 : grok_t :=
            { g3 with captures_by_subname := tctreeput g3.captures_by_subname gct.subname sl }
          (g4, true)

/-- A string-typed member of a grok_capture as seen by `grok_capture_free`:
NULL, the process-wide shared EMPTYSTR sentinel (compared by identity), or an
owned heap buffer. -/
inductive StrField where
  | null : StrField
  | emptystr : StrField
  | owned : CStr → StrField
deriving DecidableEq

/-- The `_GCT_STRFREE` macro condition: `free(member)` is called iff the
member is non-NULL and is not the EMPTYSTR sentinel. -/
def gct_strfree (f : StrField) : Bool :=
  !(f == StrField.null) && !(f == StrField.emptystr)

/-- The buffer-holding members of a grok_capture, as `grok_capture_free`
sees them. -/
structure grok_capture_bufs where
  name : StrField
  subname : StrField
  pattern : StrField
  predicate_lib : StrField
  predicate_func_name : StrField
  extra_val : StrField
deriving DecidableEq

/-- `grok_capture_free`: applies `_GCT_STRFREE` to the six members in source
order; recorded as (member, was it freed) pairs. -/
def grok_capture_free (c : grok_capture_bufs) : List (StrField × Bool) :=
  [(c.name, gct_strfree c.name),
   (c.subname, gct_strfree c.subname),
   (c.pattern, gct_strfree c.pattern),
   (c.predicate_lib, gct_strfree c.predicate_lib),
   (c.predicate_func_name, gct_strfree c.predicate_func_name),
   (c.extra_val, gct_strfree c.extra_val)]

/-- Keys of a tree are strictly ascending: the representation invariant of the
ordered dictionary behind the shim. -/
def SortedKeys [LinearOrder κ] (t : TCTree κ α) : Prop :=
  List.Pairwise (fun p q => p.1 < q.1) t

/-- Registry invariant maintained by `grok_capture_add`: all four trees are
ordered dictionaries, by-id values carry their key as id, and no bucket list
holds two captures with the same id. -/
structure GrokInv (g : grok_t) : Prop where
  id_sorted : SortedKeys g.captures_by_id
  num_sorted : SortedKeys g.captures_by_capture_number
  name_sorted : SortedKeys g.captures_by_name
  subname_sorted : SortedKeys g.captures_by_subname
  id_key : ∀ p ∈ g.captures_by_id, p.2.id = p.1
  name_nodup : ∀ p ∈ g.captures_by_name,
    List.Pairwise (fun a b : grok_capture => a.id ≠ b.id) p.2.elems
  subname_nodup : ∀ p ∈ g.captures_by_subname,
    List.Pairwise (fun a b : grok_capture => a.id ≠ b.id) p.2.elems

/-- Concrete captures for the worked examples. -/
def c1X : grok_capture := ⟨5, -1, ['X'], [], []⟩

def c2X : grok_capture := ⟨5, -1, ['X'], [], ['Y']⟩

def gX : grok_t :=
  grok_capture_add (grok_capture_add grok_empty c1X false) c2X false

def cA3 : grok_capture := ⟨3, -1, ['A'], [], []⟩

def cB1 : grok_capture := ⟨1, -1, ['B'], [], []⟩

def cC2 : grok_capture := ⟨2, -1, ['C'], [], []⟩

def g312 : grok_t :=
  grok_capture_add (grok_capture_add (grok_capture_add grok_empty cA3 false) cB1 false) cC2 false

/-- An unqualified capture (name "WORD", no ":") for the restrict-to-qualified
example. -/
def cWORD : grok_capture := ⟨7, -1, ['W', 'O', 'R', 'D'], [], []⟩

/-- A capture record whose string members all hold the EMPTYSTR sentinel. -/
def bufs0 : grok_capture_bufs :=
  ⟨StrField.emptystr, StrField.emptystr, StrField.emptystr,
   StrField.emptystr, StrField.emptystr, StrField.emptystr⟩

/-! ## Ordered-tree lemmas -/

theorem tctreeget_tctreeput_self [LinearOrder κ] (t : TCTree κ α) (k : κ) (v : α) :
    tctreeget (tctreeput t k v) k = some v := by
  induction t with
  | nil => simp [tctreeput, tctreeget]
  | cons p t ih =>
    by_cases h1 : k < p.1
    · simp [tctreeput, h1, tctreeget]
    · by_cases h2 : k = p.1
      · simp [tctreeput, h1, h2, tctreeget]
      · simp [tctreeput, h1, h2, tctreeget, ih]

theorem tctreeget_tctreeput_ne [LinearOrder κ] (t : TCTree κ α) (k q : κ) (v : α)
    (h : q ≠ k) : tctreeget (tctreeput t k v) q = tctreeget t q := by
  induction t with
  | nil => simp [tctreeput, tctreeget, h]
  | cons p t ih =>
    by_cases h1 : k < p.1
    · simp [tctreeput, h1, tctreeget, h]
    · by_cases h2 : k = p.1
      · subst h2
        simp [tctreeput, h1, tctreeget, h]
      · simp [tctreeput, h1, h2, tctreeget, ih]

theorem mem_tctreeput [LinearOrder κ] (t : TCTree κ α) (k : κ) (v : α) (q : κ × α)
    (hq : q ∈ tctreeput t k v) : q = (k, v) ∨ q ∈ t := by
  induction t with
  | nil => simpa [tctreeput] using hq
  | cons p t ih =>
    by_cases h1 : k < p.1
    · simp only [tctreeput, if_pos h1] at hq
      simpa using hq
    · by_cases h2 : k = p.1
      · simp only [tctreeput, if_neg h1, if_pos h2] at hq
        rcases List.mem_cons.1 hq with h | h
        · exact Or.inl h
        · exact Or.inr (List.mem_cons_of_mem _ h)
      · simp only [tctreeput, if_neg h1, if_neg h2] at hq
        rcases List.mem_cons.1 hq with h | h
        · exact Or.inr (h ▸ List.mem_cons_self p t)
        · rcases ih h with h | h
          · exact Or.inl h
          · exact Or.inr (List.mem_cons_of_mem _ h)

theorem sortedKeys_tctreeput [LinearOrder κ] (t : TCTree κ α) (k : κ) (v : α)
    (h : SortedKeys t) : SortedKeys (tctreeput t k v) := by
  induction t with
  | nil => simp [tctreeput, SortedKeys]
  | cons p t ih =>
    rw [SortedKeys, List.pairwise_cons] at h
    obtain ⟨hp, ht⟩ := h
    by_cases h1 : k < p.1
    · rw [SortedKeys, tctreeput, if_pos h1, List.pairwise_cons]
      refine ⟨?_, List.pairwise_cons.2 ⟨hp, ht⟩⟩
      intro q hq
      rcases List.mem_cons.1 hq with rfl | hq
      · exact h1
      · exact h1.trans (hp q hq)
    · by_cases h2 : k = p.1
      · rw [SortedKeys, tctreeput, if_neg h1, if_pos h2, List.pairwise_cons]
        exact ⟨fun q hq => h2 ▸ hp q hq, ht⟩
      · have hpk : p.1 < k := lt_of_le_of_ne (not_lt.1 h1) (fun e => h2 e.symm)
        rw [SortedKeys, tctreeput, if_neg h1, if_neg h2, List.pairwise_cons]
        refine ⟨?_, ih ht⟩
        intro q hq
        rcases mem_tctreeput t k v q hq with rfl | hq
        · exact hpk
        · exact hp q hq

theorem tctreeget_of_mem_sorted [LinearOrder κ] (t : TCTree κ α) (h : SortedKeys t)
    (k : κ) (v : α) (hm : (k, v) ∈ t) : tctreeget t k = some v := by
  induction t with
  | nil => cases hm
  | cons p t ih =>
    rw [SortedKeys, List.pairwise_cons] at h
    rcases List.mem_cons.1 hm with rfl | hm
    · simp [tctreeget]
    · have hk : p.1 < k := h.1 (k, v) hm
      have hne : k ≠ p.1 := ne_of_gt hk
      simp [tctreeget, hne, ih h.2 hm]

theorem tctreeget_mem [LinearOrder κ] (t : TCTree κ α) (k : κ) (v : α)
    (h : tctreeget t k = some v) : (k, v) ∈ t := by
  induction t with
  | nil => simp [tctreeget] at h
  | cons p t ih =>
    by_cases hk : k = p.1
    · rw [tctreeget, if_pos hk] at h
      have hv : p.2 = v := Option.some.inj h
      subst hk
      rw [← hv]
      exact List.mem_cons_self _ _
    · rw [tctreeget, if_neg hk] at h
      exact List.mem_cons_of_mem _ (ih h)

theorem length_tctreeput_of_ne [LinearOrder κ] (t : TCTree κ α) (k : κ) (v : α)
    (h : ∀ p ∈ t, p.1 ≠ k) : (tctreeput t k v).length = t.length + 1 := by
  induction t with
  | nil => rfl
  | cons p t ih =>
    have hne : k ≠ p.1 := fun e => h p (List.mem_cons_self p t) e.symm
    by_cases h1 : k < p.1
    · simp [tctreeput, h1]
    · rw [tctreeput, if_neg h1, if_neg hne]
      simp [ih (fun q hq => h q (List.mem_cons_of_mem _ hq))]

theorem putAll_cons [LinearOrder κ] (t : TCTree κ α) (p : κ × α) (ops : List (κ × α)) :
    putAll t (p :: ops) = putAll (tctreeput t p.1 p.2) ops := rfl

theorem putAll_concat [LinearOrder κ] (t : TCTree κ α) (ops : List (κ × α)) (p : κ × α) :
    putAll t (ops ++ [p]) = tctreeput (putAll t ops) p.1 p.2 := by
  simp [putAll, List.foldl_append]

theorem sortedKeys_putAll [LinearOrder κ] (t : TCTree κ α) (ops : List (κ × α))
    (h : SortedKeys t) : SortedKeys (putAll t ops) := by
  induction ops generalizing t with
  | nil => exact h
  | cons p ops ih => exact ih _ (sortedKeys_tctreeput t p.1 p.2 h)

theorem mem_putAll [LinearOrder κ] (t : TCTree κ α) (ops : List (κ × α)) (q : κ × α)
    (hq : q ∈ putAll t ops) : q ∈ t ∨ q.1 ∈ ops.map Prod.fst := by
  induction ops generalizing t with
  | nil => exact Or.inl hq
  | cons p ops ih =>
    rw [putAll_cons] at hq
    rcases ih _ hq with h | h
    · rcases mem_tctreeput t p.1 p.2 q h with rfl | h
      · exact Or.inr (by simp)
      · exact Or.inl h
    · exact Or.inr (by simp [h])

theorem lastPut_concat_self [DecidableEq κ] (ops : List (κ × α)) (p : κ × α) (k : κ)
    (h : p.1 = k) : lastPut (ops ++ [p]) k = some p.2 := by
  simp [lastPut, List.filterMap_append, h]

theorem lastPut_concat_ne [DecidableEq κ] (ops : List (κ × α)) (p : κ × α) (k : κ)
    (h : p.1 ≠ k) : lastPut (ops ++ [p]) k = lastPut ops k := by
  simp [lastPut, List.filterMap_append, h]

theorem tctreeget_putAll [LinearOrder κ] (t : TCTree κ α) (ops : List (κ × α)) (k : κ) :
    tctreeget (putAll t ops) k = (lastPut ops k).or (tctreeget t k) := by
  induction ops using List.reverseRecOn with
  | nil => simp [putAll, lastPut]
  | append_singleton ops p ih =>
    rw [putAll_concat]
    by_cases hpk : p.1 = k
    · rw [lastPut_concat_self ops p k hpk, hpk, tctreeget_tctreeput_self, Option.or]
    · rw [lastPut_concat_ne ops p k hpk,
        tctreeget_tctreeput_ne _ _ _ _ (fun e => hpk e.symm), ih]

/-- C2: for every sequence of put(k, v) operations on one Index instance and
every key k, a subsequent get(k) returns the value of the most recent put for
that key (put is insert-or-overwrite, last-write-wins), and get on a key never
put returns NotFound (`lastPut` is `none` exactly when `k` was never put). -/
theorem claim_C2 {κ α : Type} [LinearOrder κ] (ops : List (κ × α)) (k : κ) :
    tctreeget (putAll ([] : TCTree κ α) ops) k = lastPut ops k := by
  rw [tctreeget_putAll]
  cases h : lastPut ops k <;> simp [tctreeget, Option.or]

/-- Witness for C2 at a concrete put sequence: key 1 is overwritten (10 then
30), key 5 is never put. -/
theorem claim_C2_witness :
    tctreeget (putAll ([] : TCTree Int Nat) [(1, 10), (2, 20), (1, 30)]) 1 = some 30 ∧
    tctreeget (putAll ([] : TCTree Int Nat) [(1, 10), (2, 20), (1, 30)]) 5 = none :=
  ⟨(claim_C2 [(1, 10), (2, 20), (1, 30)] 1).trans (by decide),
   (claim_C2 [(1, 10), (2, 20), (1, 30)] 5).trans (by decide)⟩

/-! ## TCLIST lemmas -/

theorem getElem?_eraseIdx_of_lt {α : Type} (l : List α) (n j : Nat) (h : j < n) :
    (l.eraseIdx n)[j]? = l[j]? := by
  induction l generalizing n j with
  | nil => simp [List.eraseIdx]
  | cons a l ih =>
    cases n with
    | zero => omega
    | succ n =>
      cases j with
      | zero => simp [List.eraseIdx]
      | succ j => simpa [List.eraseIdx] using ih n j (Nat.lt_of_succ_lt_succ h)

theorem getElem?_eraseIdx_of_ge {α : Type} (l : List α) (n j : Nat) (h : n ≤ j) :
    (l.eraseIdx n)[j]? = l[j + 1]? := by
  induction l generalizing n j with
  | nil => simp [List.eraseIdx]
  | cons a l ih =>
    cases n with
    | zero => simp [List.eraseIdx]
    | succ n =>
      cases j with
      | zero => omega
      | succ j => simpa [List.eraseIdx] using ih n j (Nat.le_of_succ_le_succ h)

theorem foldl_tclistpush_elems {α : Type} (vs : List α) (l : TCLIST α) :
    (vs.foldl tclistpush l).elems = l.elems ++ vs := by
  induction vs generalizing l with
  | nil => simp
  | cons v vs ih => simp [tclistpush, ih]

theorem foldl_tclistpush_headElem {α : Type} (vs : List α) (l : TCLIST α) :
    (vs.foldl tclistpush l).headElem = l.headElem := by
  induction vs generalizing l with
  | nil => rfl
  | cons v vs ih => simp [tclistpush, ih]

theorem pushAll_elems {α : Type} (vs : List α) : (pushAll vs).elems = vs := by
  simp [pushAll, foldl_tclistpush_elems, tclistnew]

theorem pushAll_headElem {α : Type} (vs : List α) : (pushAll vs).headElem = none := by
  simp [pushAll, foldl_tclistpush_headElem, tclistnew]

/-- C6: for every Bucket List built by pushing v1..vn in order, length() is n,
value_at(i) returns the i-th pushed value for every in-range i, and
remove_at(i) returns the element previously at i, decrements the length by 1,
leaves earlier indices unchanged and shifts every later element's index down
by one. -/
theorem claim_C6 {α : Type} (vs : List α) (i : Nat) (hi : i < vs.length) :
    tclistnum (pushAll vs) = (vs.length : Int) ∧
    tclistval (pushAll vs) (i : Int) = vs[i]? ∧
    (tclistremove (pushAll vs) (i : Int)).1 = vs[i]? ∧
    tclistnum (tclistremove (pushAll vs) (i : Int)).2 = (vs.length : Int) - 1 ∧
    (∀ j : Nat, j < i → tclistval (tclistremove (pushAll vs) (i : Int)).2 (j : Int) =
      tclistval (pushAll vs) (j : Int)) ∧
    (∀ j : Nat, i ≤ j → tclistval (tclistremove (pushAll vs) (i : Int)).2 (j : Int) =
      tclistval (pushAll vs) ((j : Int) + 1)) := by
  have hlen : (pushAll vs).elems = vs := pushAll_elems vs
  have hin : ¬ ((i : Int) < 0 ∨ ((pushAll vs).elems.length : Int) ≤ (i : Int)) := by
    rw [hlen]
    push_cast
    omega
  have hrem2 : (tclistremove (pushAll vs) (i : Int)).2 =
      ⟨(pushAll vs).headElem, vs.eraseIdx i⟩ := by
    rw [tclistremove, if_neg hin, hlen]
    simp [Int.toNat_natCast]
  have herase : (vs.eraseIdx i).length + 1 = vs.length := List.length_eraseIdx_add_one hi
  refine ⟨?_, ?_, ?_, ?_, ?_, ?_⟩
  · rw [tclistnum, hlen]
  · rw [tclistval, hlen]
    rw [if_neg (by push_cast; omega), if_neg (by push_cast; omega)]
    simp [Int.toNat_natCast]
  · rw [tclistremove, if_neg hin, hlen]
    simp [Int.toNat_natCast]
  · rw [hrem2, tclistnum]
    push_cast
    omega
  · intro j hj
    rw [hrem2, tclistval, tclistval, hlen]
    have hjlt : j < (vs.eraseIdx i).length := by omega
    rw [if_neg (by push_cast; omega), if_neg (by push_cast; omega),
      if_neg (by push_cast; omega), if_neg (by push_cast; omega)]
    simp only [Int.toNat_natCast]
    exact getElem?_eraseIdx_of_lt vs i j hj
  · intro j hj
    rw [hrem2, tclistval, tclistval, hlen]
    by_cases hjl : j < (vs.eraseIdx i).length
    · rw [if_neg (by push_cast; omega), if_neg (by push_cast; omega),
        if_neg (by push_cast; omega), if_neg (by push_cast; omega)]
      have h1 : ((i : Int) + 1 : Int) = ((i + 1 : Nat) : Int) := by push_cast; ring
      have h2 : ((j : Int) + 1).toNat = j + 1 := by omega
      rw [h2]
      simp only [Int.toNat_natCast]
      exact getElem?_eraseIdx_of_ge vs i j hj
    · rw [if_pos (by push_cast; omega), if_pos (by push_cast; omega)]

/-- Witness for C6: pushing 10, 20, 30 gives length 3 and value_at(1) = 20. -/
theorem claim_C6_witness :
    tclistnum (pushAll ([10, 20, 30] : List Nat)) = 3 ∧
    tclistval (pushAll ([10, 20, 30] : List Nat)) 1 = some 20 :=
  ⟨((claim_C6 [10, 20, 30] 1 (by decide)).1).trans (by decide),
   ((claim_C6 [10, 20, 30] 1 (by decide)).2.1).trans (by decide)⟩

theorem tclistReachable_headElem {α : Type} (l : TCLIST α) (h : TCLISTReachable l) :
    l.headElem = none := by
  induction h with
  | new => rfl
  | push l v _ ih => exact ih
  | remove l i _ ih =>
    rw [tclistremove]
    split
    · exact ih
    · exact ih
  | over l i v _ ih =>
    rw [tclistover]
    split
    · exact ih
    · exact ih

/-- C10: on every Bucket List reachable through the API, value_at at a
negative index returns NotFound — the unchecked lower bound is saved by the
hidden head node whose element is NULL from construction on — while remove_at
and overwrite_at reject negative indices by their explicit bounds checks,
leaving the list unchanged. -/
theorem claim_C10 {α : Type} (l : TCLIST α) (h : TCLISTReachable l) (i : Int) (hi : i < 0) :
    tclistval l i = none ∧ tclistremove l i = (none, l) ∧ ∀ v : α, tclistover l i v = l := by
  have hlen : ¬ ((l.elems.length : Int) ≤ i) := by
    have := Int.natCast_nonneg l.elems.length
    omega
  refine ⟨?_, ?_, ?_⟩
  · rw [tclistval, if_neg hlen, if_pos hi]
    exact tclistReachable_headElem l h
  · rw [tclistremove, if_pos (Or.inl hi)]
  · intro v
    rw [tclistover, if_pos (Or.inl hi)]

/-- Witness for C10 at the reachable one-element list [5] and index -1. -/
theorem claim_C10_witness :
    TCLISTReachable (tclistpush (tclistnew : TCLIST Nat) 5) ∧
    tclistval (tclistpush (tclistnew : TCLIST Nat) 5) (-1) = none ∧
    tclistremove (tclistpush (tclistnew : TCLIST Nat) 5) (-1) =
      (none, tclistpush (tclistnew : TCLIST Nat) 5) := by
  have hr : TCLISTReachable (tclistpush (tclistnew : TCLIST Nat) 5) :=
    TCLISTReachable.push _ _ TCLISTReachable.new
  exact ⟨hr, (claim_C10 _ hr (-1) (by decide)).1, (claim_C10 _ hr (-1) (by decide)).2.1⟩

/-! ## Registry claims: skip path, allocation failure, capture-number sentinel,
release -/

/-- C3: for every Capture whose name contains no ":", add() with
restrict_to_qualified set is a silent no-op: the registry (all four indices)
is returned exactly as it was, and get_by_id still reports NotFound for an id
that was never registered. -/
theorem claim_C3 (g : grok_t) (c : grok_capture) (hq : hasQualifier c.name = false)
    (hid : grok_capture_get_by_id g c.id = none) :
    grok_capture_add g c true = g ∧
    grok_capture_get_by_id (grok_capture_add g c true) c.id = none := by
  have hskip : grok_capture_add g c true = g := by
    simp [grok_capture_add, hq]
  exact ⟨hskip, by rw [hskip]; exact hid⟩

/-- Witness for C3: adding name "WORD" with restrict_to_qualified on an empty
registry changes nothing and id 7 stays unregistered. -/
theorem claim_C3_witness :
    hasQualifier cWORD.name = false ∧
    grok_capture_add grok_empty cWORD true = grok_empty ∧
    grok_capture_get_by_id (grok_capture_add grok_empty cWORD true) cWORD.id = none :=
  ⟨by decide, (claim_C3 grok_empty cWORD (by decide) (by decide)).1,
   (claim_C3 grok_empty cWORD (by decide) (by decide)).2⟩

/-- C5 (amended): an allocation failure during add() crashes the process at
the failing allocation and the index updates already performed persist.  With
exactly 2 successful allocations the by-id put completes, the next tcpack
fails, and add() stops uncompleted with by-id updated and by-capture-number,
by-name and by-subname untouched — add() is not atomic on OutOfMemory. -/
theorem claim_C5 (g : grok_t) (c : grok_capture) :
    grok_capture_add_alloc 2 g c false =
      ({ g with captures_by_id := tctreeput g.captures_by_id c.id c }, false) := by
  simp [grok_capture_add_alloc]

/-- C5 counterexample: an add() that does not complete (allocation fails after
the by-id update) leaves the by-id index mutated, refuting the claim that
every incomplete add() leaves all four indices unchanged. -/
theorem claim_C5_counterexample :
    (grok_capture_add_alloc 2 grok_empty c1X false).2 = false ∧
    (grok_capture_add_alloc 2 grok_empty c1X false).1.captures_by_id ≠
      grok_empty.captures_by_id := by decide

theorem grok_capture_add_run_num (g : grok_t) (c : grok_capture) :
    (grok_capture_add g c false).captures_by_capture_number =
      tctreeput g.captures_by_capture_number c.pcre_capture_number c := by
  simp [grok_capture_add]

/-- C8: the -1 sentinel is a legitimate key of the by-capture-number index:
after any sequence of (unrestricted) add() calls of Captures whose
pcre_capture_number is -1, get_by_capture_number(-1) returns the full record
of the most recently added such Capture. -/
theorem claim_C8 (cs : List grok_capture) (c : grok_capture)
    (hall : ∀ x ∈ cs, x.pcre_capture_number = -1) (hlast : cs.getLast? = some c) :
    grok_capture_get_by_capture_number
        (cs.foldl (fun g x => grok_capture_add g x false) grok_empty) (-1) = some c := by
  induction cs using List.reverseRecOn with
  | nil => simp at hlast
  | append_singleton ds d ih =>
    have hd : d.pcre_capture_number = -1 := hall d (by simp)
    have hc : d = c := by
      rw [List.getLast?_concat] at hlast
      exact Option.some.inj hlast
    subst hc
    rw [List.foldl_append, List.foldl_cons, List.foldl_nil,
      grok_capture_get_by_capture_number, grok_capture_add_run_num, hd,
      tctreeget_tctreeput_self]

/-- Witness for C8: both example captures have pcre_capture_number -1; after
adding both, get_by_capture_number(-1) returns the second. -/
theorem claim_C8_witness :
    (∀ x ∈ [c1X, c2X], x.pcre_capture_number = -1) ∧
    grok_capture_get_by_capture_number
        ([c1X, c2X].foldl (fun g x => grok_capture_add g x false) grok_empty) (-1) = some c2X :=
  ⟨by decide, claim_C8 [c1X, c2X] c2X (by decide) (by decide)⟩

/-- C9: release(c) frees exactly the owned buffers among the six
string/byte members and never frees a member holding the shared "unset"
EMPTYSTR sentinel. -/
theorem claim_C9 (c : grok_capture_bufs) :
    ∀ p ∈ grok_capture_free c,
      (p.1 = StrField.emptystr → p.2 = false) ∧
      (∀ s, p.1 = StrField.owned s → p.2 = true) := by
  intro p hp
  have hfree : p.2 = gct_strfree p.1 := by
    simp only [grok_capture_free, List.mem_cons, List.not_mem_nil, or_false] at hp
    rcases hp with h | h | h | h | h | h <;> subst h <;> rfl
  constructor
  · intro he
    rw [hfree, he]
    rfl
  · intro s hs
    rw [hfree, hs]
    rfl

/-- Witness for C9: on a capture whose members all hold the sentinel, the
name member is reported unfreed. -/
theorem claim_C9_witness :
    ((StrField.emptystr, gct_strfree StrField.emptystr) ∈ grok_capture_free bufs0) ∧
    gct_strfree StrField.emptystr = false :=
  ⟨by decide,
   (claim_C9 bufs0 (StrField.emptystr, gct_strfree StrField.emptystr) (by decide)).1 rfl⟩

/-! ## Iterator claim -/

theorem iterDrainAux_eq_map {κ α : Type} (t : TCTree κ α) :
    iterDrainAux t = t.map Prod.fst := by
  induction t with
  | nil => rfl
  | cons p t ih => simp [iterDrainAux, ih]

theorem length_putAll_nodup [LinearOrder κ] (ops : List (κ × α))
    (h : (ops.map Prod.fst).Nodup) : (putAll ([] : TCTree κ α) ops).length = ops.length := by
  induction ops using List.reverseRecOn with
  | nil => rfl
  | append_singleton ds p ih =>
    rw [List.map_append] at h
    rcases List.nodup_append.1 h with ⟨hds, _, hdisj⟩
    have hnot : p.1 ∉ ds.map Prod.fst := fun hm => hdisj hm (by simp)
    have hrep : ∀ q ∈ putAll ([] : TCTree κ α) ds, q.1 ≠ p.1 := by
      intro q hq he
      rcases mem_putAll _ _ _ hq with h | h
      · cases h
      · exact hnot (he ▸ h)
    rw [putAll_concat, length_tctreeput_of_ne _ _ _ hrep, ih hds, List.length_append,
      List.length_singleton]

/-- C7: after n puts with distinct keys, starting an iteration (from any prior
iterator state, which a fresh iterate() call discards) and exhausting it
yields exactly n keys, in ascending comparator order, and resolving each key
through get pairs it with the stored value; draining after a renewed
iterate() always restarts from the first key, because the iterator is reset to
the full entry sequence regardless of the previous iterator's position. -/
theorem claim_C7 {κ α : Type} [LinearOrder κ] (ops : List (κ × α))
    (hnd : (ops.map Prod.fst).Nodup) (prev : TCTree κ α) :
    (iterDrain (tctreeiterinit ⟨putAll [] ops, prev⟩)).length = ops.length ∧
    List.Pairwise (fun a b => a < b) (iterDrain (tctreeiterinit ⟨putAll [] ops, prev⟩)) ∧
    (iterDrain (tctreeiterinit ⟨putAll [] ops, prev⟩)).map
        (fun k => (k, tctreeget (putAll ([] : TCTree κ α) ops) k)) =
      (putAll ([] : TCTree κ α) ops).map (fun p => (p.1, some p.2)) := by
  have hiter : iterDrain (tctreeiterinit ⟨putAll ([] : TCTree κ α) ops, prev⟩) =
      (putAll ([] : TCTree κ α) ops).map Prod.fst := by
    rw [iterDrain, tctreeiterinit, iterDrainAux_eq_map]
  have hs : SortedKeys (putAll ([] : TCTree κ α) ops) :=
    sortedKeys_putAll _ _ (List.Pairwise.nil)
  refine ⟨?_, ?_, ?_⟩
  · rw [hiter, List.length_map, length_putAll_nodup ops hnd]
  · rw [hiter]
    exact List.Pairwise.map _ (fun a b h => h) hs
  · rw [hiter, List.map_map]
    refine List.map_congr_left ?_
    intro p hp
    have hg : tctreeget (putAll ([] : TCTree κ α) ops) p.1 = some p.2 :=
      tctreeget_of_mem_sorted _ hs p.1 p.2 hp
    simp [hg]

/-- Witness for C7: keys 1, 3, 2 are distinct; the drained iterator has three
keys even when a stale iterator state is replaced. -/
theorem claim_C7_witness :
    (([((1 : Int), (10 : Nat)), (3, 20), (2, 30)].map Prod.fst).Nodup) ∧
    (iterDrain (tctreeiterinit
      ⟨putAll [] [((1 : Int), (10 : Nat)), (3, 20), (2, 30)], [(2, 30)]⟩)).length = 3 :=
  ⟨by decide,
   ((claim_C7 [((1 : Int), (10 : Nat)), (3, 20), (2, 30)] (by decide) [(2, 30)]).1).trans rfl⟩

/-! ## Registry invariant, dedup-by-id and walk order -/

theorem removeSameId_sublist (cid : Int) (l : List grok_capture) :
    List.Sublist (removeSameId cid l) l := by
  induction l with
  | nil => simp [removeSameId]
  | cons x t ih =>
    by_cases hx : x.id = cid
    · rw [removeSameId, if_pos hx]
      exact List.sublist_cons_self x t
    · rw [removeSameId, if_neg hx]
      exact ih.cons₂ x

theorem removeSameId_id_ne (cid : Int) (l : List grok_capture)
    (h : List.Pairwise (fun a b : grok_capture => a.id ≠ b.id) l) (x : grok_capture)
    (hx : x ∈ removeSameId cid l) : x.id ≠ cid := by
  induction l with
  | nil => cases hx
  | cons y t ih =>
    rcases List.pairwise_cons.1 h with ⟨hy, ht⟩
    by_cases hyc : y.id = cid
    · rw [removeSameId, if_pos hyc] at hx
      exact fun e => hy x hx (hyc.trans e.symm)
    · rw [removeSameId, if_neg hyc] at hx
      rcases List.mem_cons.1 hx with rfl | hx
      · exact hyc
      · exact ih ht hx

theorem bucketUpdate_pairwise (c : grok_capture) (stored : Option (TCLIST grok_capture))
    (h : ∀ l, stored = some l →
      List.Pairwise (fun a b : grok_capture => a.id ≠ b.id) l.elems) :
    List.Pairwise (fun a b : grok_capture => a.id ≠ b.id) (bucketUpdate c stored).elems := by
  have hbase : List.Pairwise (fun a b : grok_capture => a.id ≠ b.id)
      (stored.getD tclistnew).elems := by
    cases stored with
    | none => exact List.Pairwise.nil
    | some l => exact h l rfl
  rw [bucketUpdate, tclistpush]
  apply List.pairwise_append.2
  refine ⟨(hbase.sublist (removeSameId_sublist c.id _)), List.pairwise_singleton _ _, ?_⟩
  intro x hx y hy
  have hyc : y = c := List.mem_singleton.1 hy
  rw [hyc]
  exact removeSameId_id_ne c.id _ hbase x hx

theorem grokInv_empty : GrokInv grok_empty := by
  constructor <;> simp [grok_empty, SortedKeys]

theorem grokInv_add (g : grok_t) (c : grok_capture) (f : Bool) (h : GrokInv g) :
    GrokInv (grok_capture_add g c f) := by
  rw [grok_capture_add]
  by_cases hskip : (f && !hasQualifier c.name) = true
  · rw [if_pos hskip]
    exact h
  · rw [if_neg hskip]
    constructor
    · exact sortedKeys_tctreeput _ _ _ h.id_sorted
    · exact sortedKeys_tctreeput _ _ _ h.num_sorted
    · exact sortedKeys_tctreeput _ _ _ h.name_sorted
    · exact sortedKeys_tctreeput _ _ _ h.subname_sorted
    · intro p hp
      rcases mem_tctreeput _ _ _ p hp with rfl | hp
      · rfl
      · exact h.id_key p hp
    · intro p hp
      rcases mem_tctreeput _ _ _ p hp with rfl | hp
      · exact bucketUpdate_pairwise c _ (fun l hl => h.name_nodup (c.name, l) (tctreeget_mem _ _ _ hl))
      · exact h.name_nodup p hp
    · intro p hp
      rcases mem_tctreeput _ _ _ p hp with rfl | hp
      · exact bucketUpdate_pairwise c _
          (fun l hl => h.subname_nodup (c.subname, l) (tctreeget_mem _ _ _ hl))
      · exact h.subname_nodup p hp

theorem reachable_grokInv (g : grok_t) (h : Reachable g) : GrokInv g := by
  induction h with
  | empty => exact grokInv_empty
  | step g c f _ ih => exact grokInv_add g c f ih

/-- C1: adding a Capture whose id equals one already stored under the same
name key replaces that entry: after add(c1{id=5,name="X"}) then
add(c2{id=5,name="X",pattern="Y"}), get_by_name("X") returns a Capture whose
pattern is "Y" and the bucket list under "X" still has length 1; in general,
in every reachable Registry state no name key's bucket list holds two
Captures with the same id. -/
theorem claim_C1 :
    ((grok_capture_get_by_name gX ['X']).map grok_capture.pattern = some ['Y'] ∧
     (tctreeget gX.captures_by_name ['X']).map tclistnum = some 1) ∧
    ∀ g, Reachable g → ∀ p ∈ g.captures_by_name,
      List.Pairwise (fun a b : grok_capture => a.id ≠ b.id) p.2.elems := by
  refine ⟨⟨by decide, by decide⟩, ?_⟩
  intro g hg p hp
  exact (reachable_grokInv g hg).name_nodup p hp

/-- Witness for C1: the two-add registry gX is reachable and its "X" bucket
list (holding only c2X) has pairwise-distinct ids. -/
theorem claim_C1_witness :
    Reachable gX ∧
    List.Pairwise (fun a b : grok_capture => a.id ≠ b.id)
      ((⟨none, [c2X]⟩ : TCLIST grok_capture)).elems := by
  have hr : Reachable gX :=
    Reachable.step _ _ _ (Reachable.step _ _ _ Reachable.empty)
  exact ⟨hr, claim_C1.2 gX hr (['X'], ⟨none, [c2X]⟩) (by decide)⟩

theorem walkFrom_eq_map (g : grok_t) (t : TCTree Int grok_capture)
    (h : ∀ p ∈ t, tctreeget g.captures_by_id p.1 = some p.2) :
    walkFrom g t = t.map Prod.snd := by
  induction t with
  | nil => rfl
  | cons p t ih =>
    rw [walkFrom, h p (List.mem_cons_self p t),
      ih (fun q hq => h q (List.mem_cons_of_mem _ hq)), List.map_cons]

/-- C4: walk() yields the stored Captures in ascending order of id for every
Registry built by add() calls, regardless of insertion order; in particular
ids added in order 3, 1, 2 are yielded in order 1, 2, 3. -/
theorem claim_C4 :
    (∀ g, Reachable g →
      List.Pairwise (fun a b : grok_capture => a.id < b.id) (grok_capture_walk g)) ∧
    grok_capture_walk g312 = [cB1, cC2, cA3] := by
  constructor
  · intro g hg
    have inv := reachable_grokInv g hg
    have hres : ∀ p ∈ g.captures_by_id, tctreeget g.captures_by_id p.1 = some p.2 :=
      fun p hp => tctreeget_of_mem_sorted _ inv.id_sorted p.1 p.2 hp
    rw [grok_capture_walk, walkFrom_eq_map g _ hres]
    rw [List.pairwise_map]
    refine inv.id_sorted.imp_of_mem ?_
    intro a b ha hb hab
    rw [inv.id_key a ha, inv.id_key b hb]
    exact hab
  · decide

/-- Witness for C4: the registry built by adding ids 3, 1, 2 is reachable and
its walk is ascending by id. -/
theorem claim_C4_witness :
    Reachable g312 ∧
    List.Pairwise (fun a b : grok_capture => a.id < b.id) (grok_capture_walk g312) := by
  have hr : Reachable g312 :=
    Reachable.step _ _ _ (Reachable.step _ _ _ (Reachable.step _ _ _ Reachable.empty))
  exact ⟨hr, claim_C4.1 g312 hr⟩
